import Mathlib

/-!
Verification of the incremental, deduplicating collection pipeline of the
trustmed-ai repository (`data_collection/scripts/`).

The Python sources are shallowly embedded as executable Lean definitions:

* `RawPost`, `JThread`      — raw Reddit API records and processed thread dicts
                              (JSON objects; absent keys are `Option.none`).
* `processPost`             — `RedditPublicCollector._process_post`
* `driverStep` / `sweepSub` / `collectLoop` / `collectThreads`
                            — the per-post accept/dedup step and the sweep
                              structure of `RedditPublicCollector.collect_threads`
* `loadExistingData`        — `RedditPublicCollector._load_existing_data`
* `incrementalJsonName`     — the filename written by `_save_incremental`
* `combineFilesRun`         — `combine_files.combine_json_files`
* `extractComment` / `getPostComments`
                            — the nested comment extraction of
                              `get_post_comments` (and the identical helper in
                              `fetch_comments.py`)
* `makeRequest` / `makeRequestFC`
                            — the retry loops of `make_request` in
                              `collect_reddit_public.py` and `fetch_comments.py`,
                              with each attempt's exception/HTTP outcome made
                              an explicit value.

Timestamps (`datetime.now()`, `created_utc`) are modelled as `Nat` values
threaded explicitly; `isoformat` rendering is not modelled since nothing in
the pipeline inspects it.
-/

namespace TrustMed

/-- A raw Reddit post record as the driver sees it: a JSON object accessed
with `post.get(...)`, so every field may be absent.  `upvote_ratio` is a
float in the source; it is copied verbatim and never computed with, so its
numeric type is irrelevant and it is carried as an `Int` here. -/
structure RawPost where
  id : Option String
  title : Option String
  author : Option String
  subreddit : Option String
  created_utc : Option Nat
  score : Option Int
  num_comments : Option Nat
  permalink : Option String
  selftext : Option String
  upvote_ratio : Option Int
deriving Repr, DecidableEq

/-- An extracted comment node (`extract_comment`'s result dict). -/
inductive Comment where
  | mk (author body : String) (score : Int) (created_utc : Nat)
       (replies : List Comment)

/-- A processed thread dict (`thread_data` in `_process_post`), which is also
the shape stored in the JSON artifacts.  `id` and `subreddit` are kept
optional because artifacts read back from disk are accessed with
`thread.get(...)` / `thread['id']` and may lack them. -/
structure JThread where
  id : Option String
  title : String
  author : String
  subreddit : Option String
  created_utc : Nat
  score : Int
  num_comments : Nat
  url : String
  selftext : String
  upvote_ratio : Int
  comments : List Comment
  collected_at : Nat

/-- `RedditPublicCollector._process_post` with `fetch_comments=False`
(the mode used by `collect_threads`): drops the record iff `post.get('id')`
is falsy (absent or the empty string), otherwise builds the thread dict with
every other field defaulted.  Fields are modelled well-typed (`RawPost`), so
the surrounding `try/except` — which in Python can also drop a record whose
field values are of a pathological type, e.g. an unconvertible
`created_utc` — has no failing path left inside this model. -/
def processPost (now : Nat) (p : RawPost) (subredditName : String) : Option JThread :=
  match p.id with
  | none => none
  | some pid =>
    if pid = "" then none
    else
      some { id := some pid
             title := p.title.getD ""
             author := p.author.getD "[deleted]"
             subreddit := some (p.subreddit.getD subredditName)
             created_utc := p.created_utc.getD 0
             score := p.score.getD 0
             num_comments := p.num_comments.getD 0
             url := "https://reddit.com" ++ p.permalink.getD ""
             selftext := p.selftext.getD ""
             upvote_ratio := p.upvote_ratio.getD 0
             comments := []
             collected_at := now }

/-- Driver state: the in-memory item collection `threads` and the dedup
ledger `seen_ids`.  The ledger only ever receives truthy post ids
(`seen_ids.add` runs under `if thread:`), so it is a collection of strings;
Python-set membership is list membership here. -/
structure DState where
  threads : List JThread
  seen : List String

/-- One iteration of the per-post loop in `collect_threads`
(lines 350–369 and the two identical copies for `top`/`new`):
`if len(threads) >= target_count: break` (modelled as a skip, which is
equivalent because the thread count never decreases), then
`if post.get('id') not in seen_ids`, then `_process_post`, and on success the
append to `threads` and the `seen_ids.add` in the same step. -/
def driverStep (now target : Nat) (subName : String) (st : DState) (p : RawPost) : DState :=
  if st.threads.length ≥ target then st
  else
    match p.id with
    | some s =>
      if st.seen.contains s then st
      else
        match processPost now p subName with
        | some t => ⟨st.threads ++ [t], st.seen ++ [s]⟩
        | none => st
    | none =>
      -- `None not in seen_ids` always holds, but `_process_post` returns
      -- `None` for a record with no id, so nothing is appended or recorded.
      st

/-- Processing one fetched batch (one `collect_subreddit_posts` result). -/
def processBatch (now target : Nat) (subName : String) (st : DState)
    (posts : List RawPost) : DState :=
  posts.foldl (driverStep now target subName) st

/-- One sub-source together with what the remote returns for each of the
three sort variants the driver sweeps (`hot`, `top`, `new`).  The paging
inside `collect_subreddit_posts` happens wholesale before any processing, so
each variant is modelled as the list of posts that call returns. -/
structure SubSource where
  name : String
  hot : List RawPost
  top : List RawPost
  new : List RawPost

/-- A fetch event: one invocation of `collect_subreddit_posts`, recording the
sub-source asked for and the size of the item collection at the moment the
request batch is issued. -/
structure FetchEvent where
  sub : String
  countAtFetch : Nat
deriving Repr, DecidableEq

/-- The body of `collect_threads` for a single sub-source: Method 1 (`hot`)
runs unconditionally, Methods 2 (`top`) and 3 (`new`) only while
`len(threads) < target_count`.  Returns the new state and the fetch events
issued. -/
def sweepSub (now target : Nat) (st : DState) (sub : SubSource) :
    DState × List FetchEvent :=
  let e1 : FetchEvent := ⟨sub.name, st.threads.length⟩
  let st1 := processBatch now target sub.name st sub.hot
  if st1.threads.length < target then
    let e2 : FetchEvent := ⟨sub.name, st1.threads.length⟩
    let st2 := processBatch now target sub.name st1 sub.top
    if st2.threads.length < target then
      let e3 : FetchEvent := ⟨sub.name, st2.threads.length⟩
      let st3 := processBatch now target sub.name st2 sub.new
      (st3, [e1, e2, e3])
    else (st2, [e1, e2])
  else (st1, [e1])

/-- The `for subreddit_name in available_subreddits` loop of
`collect_threads`, with its top-of-loop `if len(threads) >= target_count:
break`. -/
def collectLoop (now target : Nat) (st : DState) : List SubSource → DState × List FetchEvent
  | [] => (st, [])
  | sub :: rest =>
    if st.threads.length ≥ target then (st, [])
    else
      let p1 := sweepSub now target st sub
      let p2 := collectLoop now target p1.1 rest
      (p2.1, p1.2 ++ p2.2)

/-! ### The on-disk artifact model and `_load_existing_data` -/

/-- A file in the output directory: basename, modification time, and parsed
JSON content (a list of thread objects). -/
structure FsFile where
  name : String
  mtime : Nat
  threads : List JThread

/-- Python's `needle in hay` on strings: some contiguous run of `hay` equals
`needle`. -/
def strContains (hay needle : String) : Bool :=
  hay.data.tails.any (fun t => needle.data.isPrefixOf t)

/-- `glob.glob(f"{OUTPUT_DIR}/{disease_name}_threads_*.json")` restricted to
basenames inside the output directory (the filenames at play contain no
path separator, so `*` is "any run of characters"). -/
def globMatches (disease : String) (f : String) : Bool :=
  (disease ++ "_threads_").data.isPrefixOf f.data && ".json".data.isSuffixOf f.data

/-- `max(existing_files, key=os.path.getmtime)`: Python's `max` keeps the
earlier element on ties. -/
def pickLatest : List FsFile → Option FsFile
  | [] => none
  | f :: rest => some (rest.foldl (fun best x => if x.mtime > best.mtime then x else best) f)

/-- The candidate list built by `_load_existing_data`: timestamped files
(matching the glob, with every name containing `'incremental'` filtered
out), then — appended after them — the exact file
`{disease}_threads_incremental.json` when it exists. -/
def existingFiles (disease : String) (fs : List FsFile) : List FsFile :=
  let timestamped := fs.filter (fun f => globMatches disease f.name &&
    !(strContains f.name "incremental"))
  timestamped ++ fs.filter (fun f => f.name = disease ++ "_threads_incremental.json")

/-- The `seen_ids = {thread['id'] for thread in threads}` comprehension:
`thread['id']` raises `KeyError` on a missing key, which the surrounding
`except Exception` turns into the empty result, hence `Option`. -/
def loadSeenIds (threads : List JThread) : Option (List String) :=
  threads.mapM JThread.id

/-- `{thread.get('subreddit','') for thread in threads if thread.get('subreddit')}`. -/
def scrapedSubs (threads : List JThread) : List String :=
  threads.filterMap (fun t =>
    match t.subreddit with
    | some s => if s = "" then none else some s
    | none => none)

/-- `RedditPublicCollector._load_existing_data`: selects the single most
recently modified candidate file and seeds threads, seen ids and scraped
subreddits from it alone; any failure while reading it (modelled here:
a thread object without an `'id'` key) falls through to the empty result. -/
def loadExistingData (disease : String) (fs : List FsFile) :
    List JThread × List String × List String :=
  match pickLatest (existingFiles disease fs) with
  | none => ([], [], [])
  | some latest =>
    match loadSeenIds latest.threads with
    | some ids => (latest.threads, ids, scrapedSubs latest.threads)
    | none => ([], [], [])

/-- The JSON filename written by `_save_incremental`:
`{disease_name}_threads_incremental_{timestamp}.json`. -/
def incrementalJsonName (disease ts : String) : String :=
  disease ++ "_threads_incremental_" ++ ts ++ ".json"

/-- One flush of `_save_incremental` as the artifact it leaves on disk
(the CSV twin carries the same ids and is irrelevant to reseeding, which
reads only `.json` files). -/
def flushArtifact (disease ts : String) (mtime : Nat) (threads : List JThread) : FsFile :=
  ⟨incrementalJsonName disease ts, mtime, threads⟩

/-- `collect_threads` end to end: load prior data, set
`target_count = initial_count + additional_count`, drop already-scraped
subreddits, return early when none are left, else run the sweep loop. -/
def collectThreads (now : Nat) (disease : String) (cfg : List SubSource)
    (additional : Nat) (fs : List FsFile) : DState × List FetchEvent :=
  let loaded := loadExistingData disease fs
  let target := loaded.1.length + additional
  let available := cfg.filter (fun sub => !(loaded.2.2.contains sub.name))
  if available.isEmpty then (⟨loaded.1, loaded.2.1⟩, [])
  else collectLoop now target ⟨loaded.1, loaded.2.1⟩ available

/-! ### `combine_files.combine_json_files` -/

/-- Accumulator of the combine loop: `all_threads`, `seen_ids`, and the ids
reported as duplicate skips (the `print` in the `elif thread_id:` branch). -/
structure CombineAcc where
  threads : List JThread
  seen : List String
  skips : List String

/-- The per-thread body of `combine_json_files`:
`thread_id = thread.get('id'); if thread_id and thread_id not in seen_ids:`
append and record; `elif thread_id:` report a duplicate skip; records with a
falsy id fall through silently. -/
def combineStep (acc : CombineAcc) (t : JThread) : CombineAcc :=
  match t.id with
  | none => acc
  | some tid =>
    if tid = "" then acc
    else if acc.seen.contains tid then ⟨acc.threads, acc.seen, acc.skips ++ [tid]⟩
    else ⟨acc.threads ++ [t], acc.seen ++ [tid], acc.skips⟩

/-- Folding `combine_json_files` over the parsed input artifacts (each input
is the thread list of one JSON file). -/
def combineFilesAcc (acc : CombineAcc) (files : List (List JThread)) : CombineAcc :=
  files.foldl (fun a f => f.foldl combineStep a) acc

/-- `combine_json_files` starting from the empty ledger. -/
def combineFilesRun (files : List (List JThread)) : CombineAcc :=
  combineFilesAcc ⟨[], [], []⟩ files

/-- The stable ids present in a list of combined threads. -/
def threadIds (l : List JThread) : List String :=
  l.filterMap JThread.id

/-! ### Nested comment extraction (`get_post_comments` / `extract_comment`)

The same recursive `extract_comment` closure appears verbatim in
`collect_reddit_public.get_post_comments` and
`fetch_comments.CommentFetcher.get_post_comments`; both are embedded once
here. -/

/-- A raw listing child as returned by the comments endpoint: a `kind` tag
(`'t1'` marks a comment) and the `data` payload, whose `replies` field is a
nested listing when it is a dict (`none` models both an absent field and the
non-dict `""` Reddit uses for "no replies"). -/
inductive RawNode where
  | mk (kind : String) (author body : Option String) (score : Option Int)
       (created_utc : Option Nat) (replies : Option (List RawNode))

def RawNode.kind : RawNode → String
  | .mk k _ _ _ _ _ => k

def RawNode.author : RawNode → Option String
  | .mk _ a _ _ _ _ => a

def RawNode.body : RawNode → Option String
  | .mk _ _ b _ _ _ => b

def RawNode.score : RawNode → Option Int
  | .mk _ _ _ s _ _ => s

def RawNode.created_utc : RawNode → Option Nat
  | .mk _ _ _ _ c _ => c

def RawNode.replies : RawNode → Option (List RawNode)
  | .mk _ _ _ _ _ r => r

/-- `extract_comment(comment_obj, current_depth, max_depth)`: non-`'t1'`
children yield `None`; replies are recursed into only while
`current_depth < max_depth`, every reply child being visited (there is no
breadth cap below the top level). -/
def extractComment (maxDepth : Nat) (node : RawNode) (curDepth : Nat) : Option Comment :=
  if node.kind = "t1" then
    some (Comment.mk (node.author.getD "[deleted]") (node.body.getD "")
      (node.score.getD 0) (node.created_utc.getD 0)
      (if h : curDepth < maxDepth then
        (node.replies.getD []).filterMap (fun c => extractComment maxDepth c (curDepth + 1))
      else []))
  else none
termination_by maxDepth - curDepth
decreasing_by omega

/-- The loop `for comment_obj in comment_data[:limit]` of
`get_post_comments`, keeping only successfully extracted comments. -/
def getPostComments (commentData : List RawNode) (limit maxDepth : Nat) : List Comment :=
  (commentData.take limit).filterMap (fun c => extractComment maxDepth c 0)

mutual

/-- Nesting height of an extracted comment: a reply-less comment has height
0; a comment whose deepest reply chain has `n` links has height `n`. -/
def commentHeight : Comment → Nat
  | .mk _ _ _ _ replies => heightList replies

/-- Height helper over a reply list: `1 +` the tallest child, `0` when empty. -/
def heightList : List Comment → Nat
  | [] => 0
  | c :: cs => max (commentHeight c + 1) (heightList cs)

end

mutual

/-- `true` iff every node of the comment tree keeps at most `cap` children. -/
def breadthLe (cap : Nat) : Comment → Bool
  | .mk _ _ _ _ replies => decide (replies.length ≤ cap) && breadthLeList cap replies

/-- `breadthLe` over a reply list. -/
def breadthLeList (cap : Nat) : List Comment → Bool
  | [] => true
  | c :: cs => breadthLe cap c && breadthLeList cap cs

end

/-! ### The fetch boundary (`make_request`) -/

/-- What one attempt of the retry loop runs into, with the exceptions the
Python code catches reified as values: a parsed payload, an
`urllib.error.HTTPError` with its status code, or any other exception
(network failure, gzip/JSON decode error), all of which the `except` clauses
absorb. -/
inductive FetchAttempt (α : Type) where
  | success (payload : α)
  | httpError (code : Nat)
  | netError
deriving Repr, DecidableEq

/-- `RedditPublicCollector.make_request`: the list holds the outcome of each
of the `max_retries` attempts in order.  429 always retries (falling off the
loop into the final `return None`), 403 and other exceptions retry unless
this was the last attempt, any other HTTP status returns `None` at once. -/
def makeRequest {α : Type} : List (FetchAttempt α) → Option α
  | [] => none
  | a :: rest =>
    match a with
    | .success d => some d
    | .httpError code =>
      if code = 429 then makeRequest rest
      else if code = 403 then (if rest.isEmpty then none else makeRequest rest)
      else none
    | .netError => if rest.isEmpty then none else makeRequest rest

/-- `CommentFetcher.make_request` (`fetch_comments.py`): as above except 403
returns `None` immediately and non-429/403 HTTP errors retry unless this was
the last attempt. -/
def makeRequestFC {α : Type} : List (FetchAttempt α) → Option α
  | [] => none
  | a :: rest =>
    match a with
    | .success d => some d
    | .httpError code =>
      if code = 429 then makeRequestFC rest
      else if code = 403 then none
      else (if rest.isEmpty then none else makeRequestFC rest)
    | .netError => if rest.isEmpty then none else makeRequestFC rest

/-! ### Spec-side driver without the target check

`driverStepNT`/`runNT` are the acceptance logic of `collect_threads` with the
target short-circuit removed.  They are not part of the source; they serve
only to phrase "the source can supply at least the target count of
acceptable items" as a hypothesis: the unbounded run's final count is what
the source can supply. -/

def driverStepNT (now : Nat) (subName : String) (st : DState) (p : RawPost) : DState :=
  match p.id with
  | some s =>
    if st.seen.contains s then st
    else
      match processPost now p subName with
      | some t => ⟨st.threads ++ [t], st.seen ++ [s]⟩
      | none => st
  | none => st

def processBatchNT (now : Nat) (subName : String) (st : DState) (posts : List RawPost) : DState :=
  posts.foldl (driverStepNT now subName) st

def sweepNT (now : Nat) (st : DState) (sub : SubSource) : DState :=
  processBatchNT now sub.name st (sub.hot ++ sub.top ++ sub.new)

def runNT (now : Nat) (st : DState) : List SubSource → DState
  | [] => st
  | sub :: rest => runNT now (sweepNT now st sub) rest

/-! ### Lemmas about the accept/dedup step -/

/-- The ledger key of a processed thread (accepted threads always carry
`some` id). -/
def idKey (t : JThread) : String := t.id.getD ""

theorem processPost_id {now : Nat} {p : RawPost} {sub : String} {t : JThread}
    (h : processPost now p sub = some t) : t.id = p.id := by
  unfold processPost at h
  cases hid : p.id with
  | none => rw [hid] at h; exact absurd h (by simp)
  | some s =>
    rw [hid] at h
    by_cases hs : s = ""
    · simp [hs] at h
    · simp only [hs, if_false] at h
      cases h
      rfl

/-- Exhaustive description of one driver step: either the state is left
untouched, or exactly one thread is appended while its id is added to the
ledger in the same step. -/
theorem driverStep_cases (now target : Nat) (subName : String) (st : DState) (p : RawPost) :
    driverStep now target subName st p = st ∨
    ∃ t s, p.id = some s ∧ processPost now p subName = some t ∧ t.id = some s ∧
      s ∉ st.seen ∧ st.threads.length < target ∧
      driverStep now target subName st p = ⟨st.threads ++ [t], st.seen ++ [s]⟩ := by
  by_cases hge : st.threads.length ≥ target
  · left; unfold driverStep; rw [if_pos hge]
  · cases hid : p.id with
    | none => left; unfold driverStep; rw [if_neg hge, hid]
    | some s =>
      by_cases hseen : s ∈ st.seen
      · left; unfold driverStep
        rw [if_neg hge, hid]
        simp [hseen]
      · cases hp : processPost now p subName with
        | none =>
          left; unfold driverStep
          rw [if_neg hge, hid]
          simp [hseen, hp]
        | some t =>
          right
          refine ⟨t, s, rfl, rfl, (processPost_id hp).trans hid, hseen, by omega, ?_⟩
          unfold driverStep
          rw [if_neg hge, hid]
          simp [hseen, hp]

/-- The accept direction: an unseen, processable record below target is
appended together with its ledger entry. -/
theorem driverStep_accepts (now target : Nat) (subName : String) (st : DState)
    (p : RawPost) (s : String) (t : JThread)
    (hlt : st.threads.length < target) (hid : p.id = some s)
    (hseen : s ∉ st.seen) (hp : processPost now p subName = some t) :
    driverStep now target subName st p = ⟨st.threads ++ [t], st.seen ++ [s]⟩ := by
  unfold driverStep
  rw [if_neg (by omega), hid]
  simp [hseen, hp]

/-- "`st'` extends `st`": the item collection grew by a block `Δ` of threads
whose ids were simultaneously recorded in the ledger, are pairwise distinct,
and were unseen before. -/
def DExtends (st st' : DState) : Prop :=
  ∃ Δ, st'.threads = st.threads ++ Δ ∧ st'.seen = st.seen ++ Δ.map idKey ∧
    (Δ.map idKey).Nodup ∧ ∀ k ∈ Δ.map idKey, k ∉ st.seen

theorem DExtends.rfl (st : DState) : DExtends st st :=
  ⟨[], by simp, by simp, by simp, by simp⟩

theorem DExtends.trans {st₁ st₂ st₃ : DState}
    (h₁ : DExtends st₁ st₂) (h₂ : DExtends st₂ st₃) : DExtends st₁ st₃ := by
  obtain ⟨Δ₁, ht₁, hs₁, hn₁, hf₁⟩ := h₁
  obtain ⟨Δ₂, ht₂, hs₂, hn₂, hf₂⟩ := h₂
  refine ⟨Δ₁ ++ Δ₂, by simp [ht₂, ht₁], by simp [hs₂, hs₁], ?_, ?_⟩
  · rw [List.map_append]
    refine List.Nodup.append hn₁ hn₂ ?_
    intro k hk₁ hk₂
    exact hf₂ k hk₂ (by simp [hs₁, hk₁])
  · intro k hk
    rw [List.map_append, List.mem_append] at hk
    rcases hk with hk | hk
    · exact hf₁ k hk
    · intro hmem
      exact hf₂ k hk (by simp [hs₁, hmem])

theorem driverStep_extends (now target : Nat) (subName : String) (st : DState) (p : RawPost) :
    DExtends st (driverStep now target subName st p) := by
  rcases driverStep_cases now target subName st p with h | ⟨t, s, _, _, htid, hseen, _, h⟩
  · rw [h]; exact DExtends.rfl st
  · rw [h]
    refine ⟨[t], by simp, by simp [idKey, htid], by simp, ?_⟩
    intro k hk
    simp [idKey, htid] at hk
    subst hk
    exact hseen

theorem foldl_extends {α : Type} (f : DState → α → DState)
    (hf : ∀ st a, DExtends st (f st a)) :
    ∀ (l : List α) (st : DState), DExtends st (l.foldl f st) := by
  intro l
  induction l with
  | nil => intro st; exact DExtends.rfl st
  | cons a l ih => intro st; exact (hf st a).trans (ih (f st a))

theorem processBatch_extends (now target : Nat) (subName : String) (st : DState)
    (posts : List RawPost) : DExtends st (processBatch now target subName st posts) :=
  foldl_extends _ (driverStep_extends now target subName) posts st

theorem sweepSub_extends (now target : Nat) (st : DState) (sub : SubSource) :
    DExtends st (sweepSub now target st sub).1 := by
  unfold sweepSub
  dsimp only
  split
  · split
    · exact ((processBatch_extends now target sub.name st sub.hot).trans
        (processBatch_extends now target sub.name _ sub.top)).trans
        (processBatch_extends now target sub.name _ sub.new)
    · exact (processBatch_extends now target sub.name st sub.hot).trans
        (processBatch_extends now target sub.name _ sub.top)
  · exact processBatch_extends now target sub.name st sub.hot

theorem collectLoop_extends (now target : Nat) :
    ∀ (subs : List SubSource) (st : DState), DExtends st (collectLoop now target st subs).1 := by
  intro subs
  induction subs with
  | nil => intro st; exact DExtends.rfl st
  | cons sub rest ih =>
    intro st
    unfold collectLoop
    split
    · exact DExtends.rfl st
    · exact (sweepSub_extends now target st sub).trans (ih _)

/-- Thread counts never decrease across a step. -/
theorem DExtends.length_le {st st' : DState} (h : DExtends st st') :
    st.threads.length ≤ st'.threads.length := by
  obtain ⟨Δ, ht, _, _, _⟩ := h
  simp [ht]

/-! ### The target bound and the short-circuit -/

theorem driverStep_le_target (now target : Nat) (subName : String) (st : DState)
    (p : RawPost) (h : st.threads.length ≤ target) :
    (driverStep now target subName st p).threads.length ≤ target := by
  rcases driverStep_cases now target subName st p with heq | ⟨t, s, _, _, _, _, hlt, heq⟩
  · rw [heq]; exact h
  · rw [heq]; simp; omega

theorem processBatch_le_target (now target : Nat) (subName : String) :
    ∀ (posts : List RawPost) (st : DState), st.threads.length ≤ target →
      (processBatch now target subName st posts).threads.length ≤ target := by
  intro posts
  induction posts with
  | nil => intro st h; exact h
  | cons p ps ih =>
    intro st h
    exact ih _ (driverStep_le_target now target subName st p h)

theorem sweepSub_le_target (now target : Nat) (st : DState) (sub : SubSource)
    (h : st.threads.length ≤ target) :
    (sweepSub now target st sub).1.threads.length ≤ target := by
  unfold sweepSub
  dsimp only
  split
  · split
    · exact processBatch_le_target now target sub.name _ _
        (processBatch_le_target now target sub.name _ _
          (processBatch_le_target now target sub.name _ _ h))
    · exact processBatch_le_target now target sub.name _ _
        (processBatch_le_target now target sub.name _ _ h)
  · exact processBatch_le_target now target sub.name _ _ h

theorem collectLoop_le_target (now target : Nat) :
    ∀ (subs : List SubSource) (st : DState), st.threads.length ≤ target →
      (collectLoop now target st subs).1.threads.length ≤ target := by
  intro subs
  induction subs with
  | nil => intro st h; exact h
  | cons sub rest ih =>
    intro st h
    unfold collectLoop
    split
    · exact h
    · exact ih _ (sweepSub_le_target now target st sub h)

/-- Every fetch that `sweepSub` issues happens while the item count is below
the target, provided the sweep was entered below target. -/
theorem sweepSub_events_lt (now target : Nat) (st : DState) (sub : SubSource)
    (h : st.threads.length < target) :
    ∀ ev ∈ (sweepSub now target st sub).2, ev.countAtFetch < target := by
  unfold sweepSub
  dsimp only
  by_cases h1 : (processBatch now target sub.name st sub.hot).threads.length < target
  · rw [if_pos h1]
    by_cases h2 : (processBatch now target sub.name
        (processBatch now target sub.name st sub.hot) sub.top).threads.length < target
    · rw [if_pos h2]
      intro ev hev
      simp only [List.mem_cons, List.not_mem_nil, or_false] at hev
      rcases hev with rfl | rfl | rfl
      · exact h
      · exact h1
      · exact h2
    · rw [if_neg h2]
      intro ev hev
      simp only [List.mem_cons, List.not_mem_nil, or_false] at hev
      rcases hev with rfl | rfl
      · exact h
      · exact h1
  · rw [if_neg h1]
    intro ev hev
    simp only [List.mem_cons, List.not_mem_nil, or_false] at hev
    rcases hev with rfl
    exact h

/-- Every fetch `collect_threads` issues happens strictly below the target:
once the target is reached no further request batch goes out. -/
theorem collectLoop_events_lt (now target : Nat) :
    ∀ (subs : List SubSource) (st : DState),
      ∀ ev ∈ (collectLoop now target st subs).2, ev.countAtFetch < target := by
  intro subs
  induction subs with
  | nil => intro st ev hev; cases hev
  | cons sub rest ih =>
    intro st ev hev
    unfold collectLoop at hev
    by_cases hge : st.threads.length ≥ target
    · rw [if_pos hge] at hev; cases hev
    · rw [if_neg hge] at hev
      dsimp only at hev
      rw [List.mem_append] at hev
      rcases hev with hev | hev
      · exact sweepSub_events_lt now target st sub (by omega) ev hev
      · exact ih _ ev hev

/-- Every fetch event names a sub-source from the swept list. -/
theorem sweepSub_events_sub (now target : Nat) (st : DState) (sub : SubSource) :
    ∀ ev ∈ (sweepSub now target st sub).2, ev.sub = sub.name := by
  unfold sweepSub
  dsimp only
  by_cases h1 : (processBatch now target sub.name st sub.hot).threads.length < target
  · rw [if_pos h1]
    by_cases h2 : (processBatch now target sub.name
        (processBatch now target sub.name st sub.hot) sub.top).threads.length < target
    · rw [if_pos h2]
      intro ev hev
      simp only [List.mem_cons, List.not_mem_nil, or_false] at hev
      rcases hev with rfl | rfl | rfl <;> rfl
    · rw [if_neg h2]
      intro ev hev
      simp only [List.mem_cons, List.not_mem_nil, or_false] at hev
      rcases hev with rfl | rfl <;> rfl
  · rw [if_neg h1]
    intro ev hev
    simp only [List.mem_cons, List.not_mem_nil, or_false] at hev
    rcases hev with rfl
    rfl

theorem collectLoop_events_sub (now target : Nat) :
    ∀ (subs : List SubSource) (st : DState), ∀ ev ∈ (collectLoop now target st subs).2,
      ev.sub ∈ subs.map SubSource.name := by
  intro subs
  induction subs with
  | nil => intro st ev hev; cases hev
  | cons sub rest ih =>
    intro st ev hev
    unfold collectLoop at hev
    by_cases hge : st.threads.length ≥ target
    · rw [if_pos hge] at hev; cases hev
    · rw [if_neg hge] at hev
      dsimp only at hev
      rw [List.mem_append] at hev
      rw [List.map_cons]
      rcases hev with hev | hev
      · exact List.mem_cons.mpr (Or.inl (sweepSub_events_sub now target st sub ev hev))
      · exact List.mem_cons.mpr (Or.inr (ih _ ev hev))

/-! ### Simulation against the unbounded driver -/

theorem driverStepNT_eq (now target : Nat) (subName : String) (st : DState) (p : RawPost)
    (h : st.threads.length < target) :
    driverStep now target subName st p = driverStepNT now subName st p := by
  unfold driverStep driverStepNT
  rw [if_neg (by omega)]

theorem driverStepNT_extends (now : Nat) (subName : String) (st : DState) (p : RawPost) :
    DExtends st (driverStepNT now subName st p) := by
  rw [← driverStepNT_eq now (st.threads.length + 1) subName st p (by omega)]
  exact driverStep_extends now (st.threads.length + 1) subName st p

/-- If a bounded batch run ends below the target, the target check never
fired, so it coincides with the unbounded run. -/
theorem processBatch_lt_eq (now target : Nat) (subName : String) :
    ∀ (posts : List RawPost) (st : DState),
      (processBatch now target subName st posts).threads.length < target →
      processBatch now target subName st posts = processBatchNT now subName st posts := by
  intro posts
  induction posts with
  | nil => intro st _; rfl
  | cons p ps ih =>
    intro st h
    have hfold : processBatch now target subName st (p :: ps) =
        processBatch now target subName (driverStep now target subName st p) ps := by
      unfold processBatch
      rw [List.foldl_cons]
    have h' : (processBatch now target subName
        (driverStep now target subName st p) ps).threads.length < target := by
      rw [← hfold]; exact h
    have hstep_le : (driverStep now target subName st p).threads.length ≤
        (processBatch now target subName (driverStep now target subName st p) ps).threads.length :=
      (processBatch_extends now target subName _ ps).length_le
    have hst_le : st.threads.length ≤ (driverStep now target subName st p).threads.length :=
      (driverStep_extends now target subName st p).length_le
    have hstep : driverStep now target subName st p = driverStepNT now subName st p :=
      driverStepNT_eq now target subName st p (by omega)
    have htail := ih (driverStep now target subName st p) h'
    unfold processBatch processBatchNT at htail ⊢
    rw [List.foldl_cons, List.foldl_cons, ← hstep]
    exact htail

theorem sweepSub_lt_eq (now target : Nat) (st : DState) (sub : SubSource)
    (h : (sweepSub now target st sub).1.threads.length < target) :
    (sweepSub now target st sub).1 = sweepNT now st sub := by
  unfold sweepSub at h ⊢
  dsimp only at h ⊢
  by_cases h1 : (processBatch now target sub.name st sub.hot).threads.length < target
  · rw [if_pos h1] at h ⊢
    by_cases h2 : (processBatch now target sub.name
        (processBatch now target sub.name st sub.hot) sub.top).threads.length < target
    · rw [if_pos h2] at h ⊢
      dsimp only at h ⊢
      have e1 : processBatch now target sub.name st sub.hot =
          processBatchNT now sub.name st sub.hot :=
        processBatch_lt_eq now target sub.name sub.hot st h1
      have e2 : processBatch now target sub.name
          (processBatch now target sub.name st sub.hot) sub.top =
          processBatchNT now sub.name (processBatch now target sub.name st sub.hot) sub.top :=
        processBatch_lt_eq now target sub.name sub.top _ h2
      have e3 := processBatch_lt_eq now target sub.name sub.new
        (processBatch now target sub.name
          (processBatch now target sub.name st sub.hot) sub.top) h
      rw [e3, e2, e1]
      unfold sweepNT processBatchNT
      rw [List.foldl_append, List.foldl_append]
    · rw [if_neg h2] at h
      dsimp only at h
      exact absurd h h2
  · rw [if_neg h1] at h
    dsimp only at h
    exact absurd h h1

theorem collectLoop_lt_eq (now target : Nat) :
    ∀ (subs : List SubSource) (st : DState),
      (collectLoop now target st subs).1.threads.length < target →
      (collectLoop now target st subs).1 = runNT now st subs := by
  intro subs
  induction subs with
  | nil => intro st _; rfl
  | cons sub rest ih =>
    intro st h
    unfold collectLoop at h ⊢
    by_cases hge : st.threads.length ≥ target
    · rw [if_pos hge] at h
      dsimp only at h
      omega
    · rw [if_neg hge] at h ⊢
      dsimp only at h ⊢
      have hrest : ((collectLoop now target (sweepSub now target st sub).1 rest).1.threads.length < target) := h
      have hsweep : (sweepSub now target st sub).1.threads.length < target := by
        have := (collectLoop_extends now target rest (sweepSub now target st sub).1).length_le
        omega
      show (collectLoop now target (sweepSub now target st sub).1 rest).1 =
        runNT now (sweepNT now st sub) rest
      rw [← sweepSub_lt_eq now target st sub hsweep]
      exact ih _ hrest

/-! ### Lemmas about the combine step -/

/-- Branch equations of the combine iteration body. -/
theorem combineStep_falsy (acc : CombineAcc) (t : JThread)
    (h : t.id = none ∨ t.id = some "") : combineStep acc t = acc := by
  rcases h with h | h <;> simp [combineStep, h]

theorem combineStep_dup (acc : CombineAcc) (t : JThread) (tid : String)
    (h : t.id = some tid) (hne : tid ≠ "") (hseen : tid ∈ acc.seen) :
    combineStep acc t = ⟨acc.threads, acc.seen, acc.skips ++ [tid]⟩ := by
  simp [combineStep, h, hne, hseen]

theorem combineStep_fresh (acc : CombineAcc) (t : JThread) (tid : String)
    (h : t.id = some tid) (hne : tid ≠ "") (hseen : tid ∉ acc.seen) :
    combineStep acc t = ⟨acc.threads ++ [t], acc.seen ++ [tid], acc.skips⟩ := by
  simp [combineStep, h, hne, hseen]

/-- Effect of one combine iteration on ledger membership: the ledger gains
exactly the truthy id of the record (and nothing on falsy ids). -/
theorem combineStep_seen_mem (acc : CombineAcc) (t : JThread) (s : String) :
    s ∈ (combineStep acc t).seen ↔ s ∈ acc.seen ∨ (t.id = some s ∧ s ≠ "") := by
  cases hid : t.id with
  | none =>
    rw [combineStep_falsy acc t (Or.inl hid)]
    simp [hid]
  | some tid =>
    by_cases he : tid = ""
    · subst he
      rw [combineStep_falsy acc t (Or.inr hid)]
      constructor
      · intro h; exact Or.inl h
      · rintro (h | ⟨heq, hne⟩)
        · exact h
        · obtain rfl := Option.some.inj heq; exact absurd rfl hne
    · by_cases hseen : tid ∈ acc.seen
      · rw [combineStep_dup acc t tid hid he hseen]
        constructor
        · intro h; exact Or.inl h
        · rintro (h | ⟨heq, _⟩)
          · exact h
          · obtain rfl := Option.some.inj heq; exact hseen
      · rw [combineStep_fresh acc t tid hid he hseen]
        simp only [List.mem_append, List.mem_singleton]
        constructor
        · rintro (h | h)
          · exact Or.inl h
          · exact Or.inr ⟨by rw [h], by rw [h]; exact he⟩
        · rintro (h | ⟨heq, _⟩)
          · exact Or.inl h
          · obtain rfl := Option.some.inj heq; exact Or.inr rfl

theorem combineFold_seen_mem (f : List JThread) :
    ∀ (acc : CombineAcc) (s : String),
      s ∈ (f.foldl combineStep acc).seen ↔
        s ∈ acc.seen ∨ ∃ t ∈ f, t.id = some s ∧ s ≠ "" := by
  induction f with
  | nil => intro acc s; simp
  | cons t f ih =>
    intro acc s
    rw [List.foldl_cons, ih, combineStep_seen_mem]
    constructor
    · rintro ((h | h) | ⟨t', ht', h⟩)
      · exact Or.inl h
      · exact Or.inr ⟨t, by simp, h⟩
      · exact Or.inr ⟨t', by simp [ht'], h⟩
    · rintro (h | ⟨t', ht', h⟩)
      · exact Or.inl (Or.inl h)
      · rcases List.mem_cons.mp ht' with rfl | ht'
        · exact Or.inl (Or.inr h)
        · exact Or.inr ⟨t', ht', h⟩

theorem combineFilesAcc_seen_mem (files : List (List JThread)) :
    ∀ (acc : CombineAcc) (s : String),
      s ∈ (combineFilesAcc acc files).seen ↔
        s ∈ acc.seen ∨ ∃ f ∈ files, ∃ t ∈ f, t.id = some s ∧ s ≠ "" := by
  induction files with
  | nil => intro acc s; simp [combineFilesAcc]
  | cons f files ih =>
    intro acc s
    unfold combineFilesAcc at ih ⊢
    rw [List.foldl_cons, ih, combineFold_seen_mem]
    constructor
    · rintro ((h | ⟨t, ht, h⟩) | ⟨f', hf', t, ht, h⟩)
      · exact Or.inl h
      · exact Or.inr ⟨f, by simp, t, ht, h⟩
      · exact Or.inr ⟨f', by simp [hf'], t, ht, h⟩
    · rintro (h | ⟨f', hf', t, ht, h⟩)
      · exact Or.inl (Or.inl h)
      · rcases List.mem_cons.mp hf' with rfl | hf'
        · exact Or.inl (Or.inr ⟨t, ht, h⟩)
        · exact Or.inr ⟨f', hf', t, ht, h⟩

/-- Invariant of the combine accumulator: output ids mirror the ledger, are
pairwise distinct and truthy, and only truthy ids are ever reported as
duplicate skips. -/
def CombInv (acc : CombineAcc) : Prop :=
  (∀ s, s ∈ threadIds acc.threads ↔ s ∈ acc.seen) ∧
  (threadIds acc.threads).Nodup ∧
  (∀ t ∈ acc.threads, ∃ s, t.id = some s ∧ s ≠ "") ∧
  (∀ s ∈ acc.skips, s ≠ "")

theorem combineStep_inv (acc : CombineAcc) (t : JThread) (h : CombInv acc) :
    CombInv (combineStep acc t) := by
  obtain ⟨hmem, hnd, hsome, hskip⟩ := h
  cases hid : t.id with
  | none => rw [combineStep_falsy acc t (Or.inl hid)]; exact ⟨hmem, hnd, hsome, hskip⟩
  | some tid =>
    by_cases he : tid = ""
    · subst he
      rw [combineStep_falsy acc t (Or.inr hid)]
      exact ⟨hmem, hnd, hsome, hskip⟩
    · by_cases hseen : tid ∈ acc.seen
      · rw [combineStep_dup acc t tid hid he hseen]
        refine ⟨hmem, hnd, hsome, ?_⟩
        intro s hs
        rcases List.mem_append.mp hs with hs | hs
        · exact hskip s hs
        · rw [List.mem_singleton] at hs; subst hs; exact he
      · rw [combineStep_fresh acc t tid hid he hseen]
        have hids : threadIds (acc.threads ++ [t]) = threadIds acc.threads ++ [tid] := by
          unfold threadIds
          rw [List.filterMap_append]
          simp [hid]
        refine ⟨?_, ?_, ?_, hskip⟩
        · intro s
          show s ∈ threadIds (acc.threads ++ [t]) ↔ s ∈ acc.seen ++ [tid]
          rw [hids]
          simp only [List.mem_append, List.mem_singleton]
          rw [hmem s]
        · show (threadIds (acc.threads ++ [t])).Nodup
          rw [hids]
          refine List.Nodup.append hnd (List.nodup_singleton tid) ?_
          intro a ha hb
          rw [List.mem_singleton] at hb
          subst hb
          exact hseen ((hmem a).mp ha)
        · intro t' ht'
          rcases List.mem_append.mp ht' with ht' | ht'
          · exact hsome t' ht'
          · rw [List.mem_singleton] at ht'; subst ht'; exact ⟨tid, hid, he⟩

theorem combineFold_inv (f : List JThread) :
    ∀ (acc : CombineAcc), CombInv acc → CombInv (f.foldl combineStep acc) := by
  induction f with
  | nil => intro acc h; exact h
  | cons t f ih => intro acc h; exact ih _ (combineStep_inv acc t h)

theorem combineFilesAcc_inv (files : List (List JThread)) :
    ∀ (acc : CombineAcc), CombInv acc → CombInv (combineFilesAcc acc files) := by
  induction files with
  | nil => intro acc h; exact h
  | cons f files ih =>
    intro acc h
    unfold combineFilesAcc at ih ⊢
    rw [List.foldl_cons]
    exact ih _ (combineFold_inv f acc h)

theorem combineFilesRun_inv (files : List (List JThread)) :
    CombInv (combineFilesRun files) :=
  combineFilesAcc_inv files ⟨[], [], []⟩
    ⟨by simp [threadIds], by simp [threadIds], by simp, by simp⟩

/-- Ids in the combined output are exactly the truthy ids occurring in some
input artifact. -/
theorem combineFilesRun_ids_mem (files : List (List JThread)) (s : String) :
    s ∈ threadIds (combineFilesRun files).threads ↔
      ∃ f ∈ files, ∃ t ∈ f, t.id = some s ∧ s ≠ "" := by
  rw [(combineFilesRun_inv files).1 s]
  unfold combineFilesRun
  rw [combineFilesAcc_seen_mem]
  simp

/-! ### Lemmas about artifact selection and loading -/

theorem foldl_mtime_spec (l : List FsFile) :
    ∀ (b : FsFile),
      (l.foldl (fun best x => if x.mtime > best.mtime then x else best) b ∈ b :: l) ∧
      b.mtime ≤ (l.foldl (fun best x => if x.mtime > best.mtime then x else best) b).mtime ∧
      ∀ g ∈ l, g.mtime ≤ (l.foldl (fun best x => if x.mtime > best.mtime then x else best) b).mtime := by
  induction l with
  | nil =>
    intro b
    exact ⟨List.mem_singleton.mpr rfl, Nat.le_refl _, by intro g hg; cases hg⟩
  | cons x l ih =>
    intro b
    rw [List.foldl_cons]
    obtain ⟨hmem, hle, hall⟩ := ih (if x.mtime > b.mtime then x else b)
    have hxb : b.mtime ≤ (if x.mtime > b.mtime then x else b).mtime ∧
        x.mtime ≤ (if x.mtime > b.mtime then x else b).mtime := by
      by_cases hgt : x.mtime > b.mtime
      · rw [if_pos hgt]; omega
      · rw [if_neg hgt]; omega
    refine ⟨?_, Nat.le_trans hxb.1 hle, ?_⟩
    · by_cases hgt : x.mtime > b.mtime
      · rw [if_pos hgt] at hmem ⊢
        rcases List.mem_cons.mp hmem with h | h
        · rw [h]; exact List.mem_cons_of_mem _ (List.mem_cons_self _ _)
        · exact List.mem_cons_of_mem _ (List.mem_cons_of_mem _ h)
      · rw [if_neg hgt] at hmem ⊢
        rcases List.mem_cons.mp hmem with h | h
        · rw [h]; exact List.mem_cons_self _ _
        · exact List.mem_cons_of_mem _ (List.mem_cons_of_mem _ h)
    · intro g hg
      rcases List.mem_cons.mp hg with rfl | hg
      · exact Nat.le_trans hxb.2 hle
      · exact hall g hg

/-- `max(existing_files, key=os.path.getmtime)` picks a member with maximal
modification time. -/
theorem pickLatest_spec (l : List FsFile) (f : FsFile) (h : pickLatest l = some f) :
    f ∈ l ∧ ∀ g ∈ l, g.mtime ≤ f.mtime := by
  cases l with
  | nil => cases h
  | cons b l =>
    unfold pickLatest at h
    obtain ⟨hmem, hle, hall⟩ := foldl_mtime_spec l b
    cases h
    refine ⟨hmem, ?_⟩
    intro g hg
    rcases List.mem_cons.mp hg with rfl | hg
    · exact hle
    · exact hall g hg

/-- The possible shapes of a load: empty, or everything taken from the single
most recently modified candidate artifact. -/
theorem loadExistingData_shape (disease : String) (fs : List FsFile) :
    loadExistingData disease fs = ([], [], []) ∨
    ∃ f, pickLatest (existingFiles disease fs) = some f ∧
      loadSeenIds f.threads = some (loadExistingData disease fs).2.1 ∧
      (loadExistingData disease fs).1 = f.threads ∧
      (loadExistingData disease fs).2.2 = scrapedSubs f.threads := by
  cases hpl : pickLatest (existingFiles disease fs) with
  | none => left; simp [loadExistingData, hpl]
  | some f =>
    cases hids : loadSeenIds f.threads with
    | none => left; simp [loadExistingData, hpl, hids]
    | some ids =>
      right
      exact ⟨f, rfl, by simp [loadExistingData, hpl, hids],
        by simp [loadExistingData, hpl, hids], by simp [loadExistingData, hpl, hids]⟩

theorem scrapedSubs_mem (threads : List JThread) (t : JThread) (S : String)
    (ht : t ∈ threads) (hS : t.subreddit = some S) (hne : S ≠ "") :
    S ∈ scrapedSubs threads := by
  unfold scrapedSubs
  rw [List.mem_filterMap]
  exact ⟨t, ht, by rw [hS]; simp [hne]⟩

/-! ### Lemmas about the fetch boundary -/

theorem makeRequest_some {α : Type} :
    ∀ (atts : List (FetchAttempt α)) (d : α),
      makeRequest atts = some d → FetchAttempt.success d ∈ atts := by
  intro atts
  induction atts with
  | nil => intro d h; cases h
  | cons a rest ih =>
    intro d h
    cases a with
    | success p =>
      simp only [makeRequest] at h
      cases h
      exact List.mem_cons_self _ _
    | httpError code =>
      simp only [makeRequest] at h
      by_cases h429 : code = 429
      · rw [if_pos h429] at h
        exact List.mem_cons_of_mem _ (ih d h)
      · rw [if_neg h429] at h
        by_cases h403 : code = 403
        · rw [if_pos h403] at h
          by_cases hlast : rest.isEmpty
          · rw [if_pos hlast] at h; cases h
          · rw [if_neg hlast] at h
            exact List.mem_cons_of_mem _ (ih d h)
        · rw [if_neg h403] at h; cases h
    | netError =>
      simp only [makeRequest] at h
      by_cases hlast : rest.isEmpty
      · rw [if_pos hlast] at h; cases h
      · rw [if_neg hlast] at h
        exact List.mem_cons_of_mem _ (ih d h)

theorem makeRequestFC_some {α : Type} :
    ∀ (atts : List (FetchAttempt α)) (d : α),
      makeRequestFC atts = some d → FetchAttempt.success d ∈ atts := by
  intro atts
  induction atts with
  | nil => intro d h; cases h
  | cons a rest ih =>
    intro d h
    cases a with
    | success p =>
      simp only [makeRequestFC] at h
      cases h
      exact List.mem_cons_self _ _
    | httpError code =>
      simp only [makeRequestFC] at h
      by_cases h429 : code = 429
      · rw [if_pos h429] at h
        exact List.mem_cons_of_mem _ (ih d h)
      · rw [if_neg h429] at h
        by_cases h403 : code = 403
        · rw [if_pos h403] at h; cases h
        · rw [if_neg h403] at h
          by_cases hlast : rest.isEmpty
          · rw [if_pos hlast] at h; cases h
          · rw [if_neg hlast] at h
            exact List.mem_cons_of_mem _ (ih d h)
    | netError =>
      simp only [makeRequestFC] at h
      by_cases hlast : rest.isEmpty
      · rw [if_pos hlast] at h; cases h
      · rw [if_neg hlast] at h
        exact List.mem_cons_of_mem _ (ih d h)

/-! ### Lemmas about comment extraction -/

theorem heightList_le (k : Nat) :
    ∀ (l : List Comment), (∀ c ∈ l, commentHeight c ≤ k) → heightList l ≤ k + 1 := by
  intro l
  induction l with
  | nil => intro _; unfold heightList; omega
  | cons c cs ih =>
    intro h
    unfold heightList
    have h1 : commentHeight c ≤ k := h c (List.mem_cons_self _ _)
    have h2 : heightList cs ≤ k + 1 := ih (fun c' hc' => h c' (List.mem_cons_of_mem _ hc'))
    omega

theorem extractComment_height_aux (fuel : Nat) :
    ∀ (maxDepth curDepth : Nat), maxDepth - curDepth ≤ fuel →
      ∀ (node : RawNode) (c : Comment), extractComment maxDepth node curDepth = some c →
        commentHeight c ≤ maxDepth - curDepth := by
  induction fuel with
  | zero =>
    intro mD d hfuel node c hc
    rw [extractComment] at hc
    by_cases hk : node.kind = "t1"
    · rw [if_pos hk] at hc
      have hd : ¬d < mD := by omega
      rw [dif_neg hd] at hc
      cases hc
      unfold commentHeight heightList
      omega
    · rw [if_neg hk] at hc
      cases hc
  | succ fuel ih =>
    intro mD d hfuel node c hc
    rw [extractComment] at hc
    by_cases hk : node.kind = "t1"
    · rw [if_pos hk] at hc
      by_cases hd : d < mD
      · rw [dif_pos hd] at hc
        cases hc
        unfold commentHeight
        have hall : ∀ c' ∈ (node.replies.getD []).filterMap
            (fun n => extractComment mD n (d + 1)), commentHeight c' ≤ mD - (d + 1) := by
          intro c' hc'
          obtain ⟨n, _, hn⟩ := List.mem_filterMap.mp hc'
          exact ih mD (d + 1) (by omega) n c' hn
        have := heightList_le (mD - (d + 1)) _ hall
        omega
      · rw [dif_neg hd] at hc
        cases hc
        unfold commentHeight heightList
        omega
    · rw [if_neg hk] at hc
      cases hc

/-- Depth bound of `extract_comment`: an extraction started at `curDepth`
yields a tree nested at most `maxDepth - curDepth` levels deeper. -/
theorem extractComment_height (maxDepth curDepth : Nat) (node : RawNode) (c : Comment)
    (h : extractComment maxDepth node curDepth = some c) :
    commentHeight c ≤ maxDepth - curDepth :=
  extractComment_height_aux (maxDepth - curDepth) maxDepth curDepth (Nat.le_refl _) node c h

theorem getPostComments_length_le (commentData : List RawNode) (limit maxDepth : Nat) :
    (getPostComments commentData limit maxDepth).length ≤ limit := by
  unfold getPostComments
  calc ((commentData.take limit).filterMap (fun c => extractComment maxDepth c 0)).length
      ≤ (commentData.take limit).length := List.length_filterMap_le _ _
    _ ≤ limit := by rw [List.length_take]; omega

theorem getPostComments_height (commentData : List RawNode) (limit maxDepth : Nat)
    (c : Comment) (hc : c ∈ getPostComments commentData limit maxDepth) :
    commentHeight c ≤ maxDepth := by
  unfold getPostComments at hc
  obtain ⟨n, _, hn⟩ := List.mem_filterMap.mp hc
  have := extractComment_height maxDepth 0 n c hn
  omega

/-! ### Concrete fixtures used by witnesses and counterexamples -/

def pX : RawPost :=
  ⟨some "x1", some "Metformin dosage question", none, none, none, none, none, none,
    some "How should I take it?", none⟩

def tX : JThread :=
  ⟨some "x1", "Metformin dosage question", "[deleted]", some "diabetes", 0, 0, 0,
    "https://reddit.com", "How should I take it?", 0, [], 0⟩

/-- A minimal raw post carrying only a stable id. -/
def postWithId (s : String) : RawPost :=
  ⟨some s, none, none, none, none, none, none, none, none, none⟩

def subD : SubSource :=
  ⟨"diabetes", [postWithId "a1", postWithId "a2", postWithId "a3"], [], []⟩

/-! ### Claim theorems -/

/-- C1: in `collect_threads`, a thread is appended to the in-memory
collection iff its stable id was not in `seen_ids` at the moment of the
check (first and second conjuncts: each step either leaves both the
collection and the ledger untouched, or appends the thread and records its
id in the same step — the append happens exactly when the id was unseen,
the record processable and the target not yet reached); consequently a run
over any sub-sources and sort variants accepts each stable id at most once:
the newly appended block `Δ` has pairwise-distinct ids, none previously in
the ledger (third conjunct). -/
theorem dedup_ledger_invariant (now target : Nat) (subName : String) :
    (∀ (st : DState) (p : RawPost),
      driverStep now target subName st p = st ∨
      ∃ t s, p.id = some s ∧ processPost now p subName = some t ∧ t.id = some s ∧
        s ∉ st.seen ∧ st.threads.length < target ∧
        driverStep now target subName st p = ⟨st.threads ++ [t], st.seen ++ [s]⟩) ∧
    (∀ (st : DState) (p : RawPost) (s : String) (t : JThread),
      st.threads.length < target → p.id = some s → s ∉ st.seen →
      processPost now p subName = some t →
      driverStep now target subName st p = ⟨st.threads ++ [t], st.seen ++ [s]⟩) ∧
    (∀ (st : DState) (subs : List SubSource),
      ∃ Δ, (collectLoop now target st subs).1.threads = st.threads ++ Δ ∧
        (collectLoop now target st subs).1.seen = st.seen ++ Δ.map idKey ∧
        (Δ.map idKey).Nodup ∧ ∀ k ∈ Δ.map idKey, k ∉ st.seen) :=
  ⟨fun st p => driverStep_cases now target subName st p,
   fun st p s t hlt hid hseen hp => driverStep_accepts now target subName st p s t hlt hid hseen hp,
   fun st subs => collectLoop_extends now target subs st⟩

theorem dedup_ledger_invariant_witness :
    driverStep 0 5 "diabetes" ⟨[], []⟩ pX = ⟨[tX], ["x1"]⟩ :=
  (dedup_ledger_invariant 0 5 "diabetes").2.1 ⟨[], []⟩ pX "x1" tX (by decide) rfl
    (by simp) rfl

/-- C4: whenever the source can supply at least `target` acceptable items
(expressed as: the run with the short-circuit removed would end with at
least `target` items), `collect_threads` ends with exactly `target` items,
and every fetch batch is issued strictly before the target is reached — no
request goes out once the count stands at the target. -/
theorem collect_target_short_circuit (now target : Nat) (st0 : DState) (subs : List SubSource)
    (hinit : st0.threads.length ≤ target)
    (hsupply : target ≤ (runNT now st0 subs).threads.length) :
    (collectLoop now target st0 subs).1.threads.length = target ∧
    ∀ ev ∈ (collectLoop now target st0 subs).2, ev.countAtFetch < target := by
  refine ⟨?_, collectLoop_events_lt now target subs st0⟩
  have hle := collectLoop_le_target now target subs st0 hinit
  by_cases hfinal : (collectLoop now target st0 subs).1.threads.length < target
  · have heq := collectLoop_lt_eq now target subs st0 hfinal
    rw [heq] at hfinal
    omega
  · omega

theorem collect_target_short_circuit_witness :
    (collectLoop 0 2 ⟨[], []⟩ [subD]).1.threads.length = 2 ∧
    ∀ ev ∈ (collectLoop 0 2 ⟨[], []⟩ [subD]).2, ev.countAtFetch < 2 :=
  collect_target_short_circuit 0 2 ⟨[], []⟩ [subD] (by decide) (by decide)

/-- C8: `make_request` (in both `collect_reddit_public.py` and
`fetch_comments.py`) returns either parsed response data — necessarily the
payload of one successful attempt — or `None`.  Every failure mode an
attempt can produce (rate-limit 429, forbidden 403, other HTTP error,
network/decode exception, retry exhaustion) is a `FetchAttempt` value
absorbed by the retry loop, so no exception crosses the boundary: the
embedding is a total function into `Option`. -/
theorem fetch_never_raises (α : Type) (atts : List (FetchAttempt α)) :
    (makeRequest atts = none ∨
      ∃ d, makeRequest atts = some d ∧ FetchAttempt.success d ∈ atts) ∧
    (makeRequestFC atts = none ∨
      ∃ d, makeRequestFC atts = some d ∧ FetchAttempt.success d ∈ atts) := by
  constructor
  · cases h : makeRequest atts with
    | none => exact Or.inl rfl
    | some d => exact Or.inr ⟨d, rfl, makeRequest_some atts d h⟩
  · cases h : makeRequestFC atts with
    | none => exact Or.inl rfl
    | some d => exact Or.inr ⟨d, rfl, makeRequestFC_some atts d h⟩

/-- C9: on a resumed run, any sub-source label carried by a loaded thread is
excluded from the list of sub-sources swept in that run (first conjunct:
it survives neither the `available_subreddits` filter), and no fetch of the
run targets it (second conjunct), so new items appearing there are never
collected on resume. -/
theorem resume_skips_scraped_sub (now : Nat) (disease : String) (cfg : List SubSource)
    (additional : Nat) (fs : List FsFile) (S : String) (t : JThread)
    (ht : t ∈ (loadExistingData disease fs).1)
    (hS : t.subreddit = some S) (hne : S ≠ "") :
    (∀ sub ∈ cfg.filter
        (fun sub => !((loadExistingData disease fs).2.2.contains sub.name)), sub.name ≠ S) ∧
    (∀ ev ∈ (collectThreads now disease cfg additional fs).2, ev.sub ≠ S) := by
  have hscr : S ∈ (loadExistingData disease fs).2.2 := by
    rcases loadExistingData_shape disease fs with h | ⟨f, _, _, hthreads, hsubs⟩
    · rw [h] at ht; simp at ht
    · rw [hsubs]
      rw [hthreads] at ht
      exact scrapedSubs_mem _ t S ht hS hne
  have hfilter : ∀ sub ∈ cfg.filter
      (fun sub => !((loadExistingData disease fs).2.2.contains sub.name)), sub.name ≠ S := by
    intro sub hsub hEq
    have hcond := (List.mem_filter.mp hsub).2
    rw [hEq] at hcond
    simp at hcond
    exact hcond hscr
  refine ⟨hfilter, ?_⟩
  intro ev hev
  unfold collectThreads at hev
  dsimp only at hev
  by_cases hav : (cfg.filter
      (fun sub => !((loadExistingData disease fs).2.2.contains sub.name))).isEmpty
  · rw [if_pos hav] at hev
    simp at hev
  · rw [if_neg hav] at hev
    have hmem := collectLoop_events_sub now _ _ _ ev hev
    rw [List.mem_map] at hmem
    obtain ⟨sub, hsub, hname⟩ := hmem
    intro hEq
    exact hfilter sub hsub (by rw [hname, hEq])

/-- A thread as it sits in a prior artifact, labelled with the sub-source
`diabetes`. -/
def thLoaded : JThread :=
  ⟨some "t1", "Existing thread", "u1", some "diabetes", 0, 0, 0, "", "", 0, [], 0⟩

def fsC9 : List FsFile :=
  [⟨"diabetes_threads_20240101_000000.json", 5, [thLoaded]⟩]

def cfgC9 : List SubSource :=
  [⟨"diabetes", [postWithId "n1"], [], []⟩, ⟨"prediabetes", [postWithId "n2"], [], []⟩]

theorem resume_skips_scraped_sub_witness :
    (∀ sub ∈ cfgC9.filter
        (fun sub => !((loadExistingData "diabetes" fsC9).2.2.contains sub.name)),
      sub.name ≠ "diabetes") ∧
    (∀ ev ∈ (collectThreads 0 "diabetes" cfgC9 5 fsC9).2, ev.sub ≠ "diabetes") :=
  resume_skips_scraped_sub 0 "diabetes" cfgC9 5 fsC9 "diabetes" thLoaded
    (show thLoaded ∈ [thLoaded] from List.mem_singleton.mpr rfl) rfl (by decide)

/-- C2 counterexample input: two distinct timestamped artifacts for the same
topic, the older holding id `tA`, the newer holding id `tB`. -/
def thA : JThread := ⟨some "tA", "", "", some "diabetes", 0, 0, 0, "", "", 0, [], 0⟩

def thB : JThread := ⟨some "tB", "", "", some "diabetes", 0, 0, 0, "", "", 0, [], 0⟩

def fsC2 : List FsFile :=
  [⟨"diabetes_threads_20240101_000000.json", 1, [thA]⟩,
   ⟨"diabetes_threads_20240102_000000.json", 2, [thB]⟩]

/-- C2 is false of the code: with two distinct prior artifacts, the resume
logic seeds only the ids of the most recently modified one — `tA`, present
in the older artifact, is missing from the seeded seen-set. -/
theorem load_union_counterexample :
    (∃ f ∈ fsC2, ∃ t ∈ f.threads, t.id = some "tA") ∧
    (loadExistingData "diabetes" fsC2).2.1 = ["tB"] ∧
    "tA" ∉ (loadExistingData "diabetes" fsC2).2.1 := by
  refine ⟨⟨⟨"diabetes_threads_20240101_000000.json", 1, [thA]⟩, ?_, thA, ?_, rfl⟩, ?_, ?_⟩
  · exact List.mem_cons_self _ _
  · exact List.mem_singleton.mpr rfl
  · rfl
  · rw [show (loadExistingData "diabetes" fsC2).2.1 = ["tB"] from rfl]
    decide

/-- C2 amended: the resume logic seeds the Dedup Ledger from exactly one
prior artifact — one with maximal modification time among the candidates —
rather than the union over all of them (or seeds nothing when no candidate
loads). -/
theorem load_seeds_latest_only (disease : String) (fs : List FsFile) :
    (loadExistingData disease fs).2.1 = [] ∨
    ∃ f ∈ existingFiles disease fs,
      (∀ g ∈ existingFiles disease fs, g.mtime ≤ f.mtime) ∧
      loadSeenIds f.threads = some (loadExistingData disease fs).2.1 := by
  rcases loadExistingData_shape disease fs with h | ⟨f, hpl, hids, _, _⟩
  · left; rw [h]
  · right
    obtain ⟨hmem, hmax⟩ := pickLatest_spec _ f hpl
    exact ⟨f, hmem, hmax, hids⟩

theorem load_seeds_latest_only_witness :
    (loadExistingData "diabetes" fsC2).2.1 = [] ∨
    ∃ f ∈ existingFiles "diabetes" fsC2,
      (∀ g ∈ existingFiles "diabetes" fsC2, g.mtime ≤ f.mtime) ∧
      loadSeenIds f.threads = some (loadExistingData "diabetes" fsC2).2.1 :=
  load_seeds_latest_only "diabetes" fsC2

/-- C7: an artifact written by `_save_incremental` can never reseed a later
run.  The flush writes `{disease}_threads_incremental_{ts}.json`, but
`_load_existing_data` discards every filename containing `incremental` from
the glob result and otherwise looks only for the exact name
`{disease}_threads_incremental.json` — so a run started after this flush
loads nothing, and the flushed id `t1` is absent from the seeded seen-set. -/
theorem flush_never_reseeds :
    incrementalJsonName "diabetes" "20240101_000000" =
      "diabetes_threads_incremental_20240101_000000.json" ∧
    loadExistingData "diabetes"
      [flushArtifact "diabetes" "20240101_000000" 100 [thLoaded]] = ([], [], []) ∧
    "t1" ∉ (loadExistingData "diabetes"
      [flushArtifact "diabetes" "20240101_000000" 100 [thLoaded]]).2.1 := by
  refine ⟨rfl, rfl, ?_⟩
  rw [show (loadExistingData "diabetes"
    [flushArtifact "diabetes" "20240101_000000" 100 [thLoaded]]).2.1 = [] from rfl]
  decide

/-- C3: the combine step is order-independent on the resulting id set — any
permutation of the input artifacts yields the same set of stable ids in the
combined output — and each id appears exactly once in that output. -/
theorem combine_order_independent :
    (∀ (files₁ files₂ : List (List JThread)), files₁.Perm files₂ →
      ∀ s, s ∈ threadIds (combineFilesRun files₁).threads ↔
        s ∈ threadIds (combineFilesRun files₂).threads) ∧
    (∀ files : List (List JThread), (threadIds (combineFilesRun files).threads).Nodup) := by
  constructor
  · intro files₁ files₂ hperm s
    rw [combineFilesRun_ids_mem, combineFilesRun_ids_mem]
    constructor
    · rintro ⟨f, hf, t, ht, h⟩
      exact ⟨f, hperm.mem_iff.mp hf, t, ht, h⟩
    · rintro ⟨f, hf, t, ht, h⟩
      exact ⟨f, hperm.mem_iff.mpr hf, t, ht, h⟩
  · intro files
    exact (combineFilesRun_inv files).2.1

def thC : JThread := ⟨some "tC", "", "", some "diabetes", 0, 0, 0, "", "", 0, [], 0⟩

/-- Witness: combining artifacts `[A,B]` and `[B,C]` in either order yields
the same id set — here checked at each of the three ids — namely
`{tA, tB, tC}`, with the output ids duplicate-free. -/
theorem combine_order_independent_witness :
    (("tA" ∈ threadIds (combineFilesRun [[thA, thB], [thB, thC]]).threads ↔
      "tA" ∈ threadIds (combineFilesRun [[thB, thC], [thA, thB]]).threads) ∧
     ("tB" ∈ threadIds (combineFilesRun [[thA, thB], [thB, thC]]).threads ↔
      "tB" ∈ threadIds (combineFilesRun [[thB, thC], [thA, thB]]).threads) ∧
     ("tC" ∈ threadIds (combineFilesRun [[thA, thB], [thB, thC]]).threads ↔
      "tC" ∈ threadIds (combineFilesRun [[thB, thC], [thA, thB]]).threads)) ∧
    (threadIds (combineFilesRun [[thA, thB], [thB, thC]]).threads).Nodup ∧
    threadIds (combineFilesRun [[thA, thB], [thB, thC]]).threads = ["tA", "tB", "tC"] :=
  ⟨⟨combine_order_independent.1 [[thA, thB], [thB, thC]] [[thB, thC], [thA, thB]]
      (List.Perm.swap [thB, thC] [thA, thB] []) "tA",
    combine_order_independent.1 [[thA, thB], [thB, thC]] [[thB, thC], [thA, thB]]
      (List.Perm.swap [thB, thC] [thA, thB] []) "tB",
    combine_order_independent.1 [[thA, thB], [thB, thC]] [[thB, thC], [thA, thB]]
      (List.Perm.swap [thB, thC] [thA, thB] []) "tC"⟩,
   combine_order_independent.2 [[thA, thB], [thB, thC]],
   rfl⟩

/-- C10: the combine step silently discards any record with a missing or
empty id — such a record changes neither the output, the ledger, nor the
duplicate-skip report (first conjunct) — so every item of the combined
output carries a non-empty stable id (second conjunct) and every reported
duplicate skip names a non-empty id (third conjunct). -/
theorem combine_discards_falsy_ids :
    (∀ (acc : CombineAcc) (t : JThread), (t.id = none ∨ t.id = some "") →
      combineStep acc t = acc) ∧
    (∀ files : List (List JThread),
      ∀ t ∈ (combineFilesRun files).threads, ∃ s, t.id = some s ∧ s ≠ "") ∧
    (∀ files : List (List JThread), ∀ s ∈ (combineFilesRun files).skips, s ≠ "") :=
  ⟨combineStep_falsy,
   fun files => (combineFilesRun_inv files).2.2.1,
   fun files => (combineFilesRun_inv files).2.2.2⟩

/-- A record with an empty stable id, as the combine step sees it. -/
def thNoId : JThread := ⟨some "", "orphan", "", none, 0, 0, 0, "", "", 0, [], 0⟩

theorem combine_discards_falsy_ids_witness :
    combineStep ⟨[thA], ["tA"], []⟩ thNoId = ⟨[thA], ["tA"], []⟩ :=
  combine_discards_falsy_ids.1 ⟨[thA], ["tA"], []⟩ thNoId (Or.inr rfl)

/-- C6 counterexample input: a raw record with a stable id but neither a
title nor a body. -/
def pNoText : RawPost :=
  ⟨some "x9", none, none, none, none, none, none, none, none, none⟩

/-- C6 is false of the code: `_process_post` requires only the stable id.
This record lacks any usable title/body, yet it is not dropped — it becomes
an item with title and body defaulted to the empty string. -/
theorem normalizer_drop_counterexample :
    pNoText.title = none ∧ pNoText.selftext = none ∧
    processPost 3 pNoText "diabetes" =
      some ⟨some "x9", "", "[deleted]", some "diabetes", 0, 0, 0,
        "https://reddit.com", "", 0, [], 3⟩ :=
  ⟨rfl, rfl, rfl⟩

/-- C6 amended: `_process_post` returns `None` iff the record lacks a
truthy stable id (the key is absent or the id is the empty string); a
title/body is not required — a record with a usable id always yields an
item, its text fields defaulting to empty. -/
theorem normalizer_drop_iff (now : Nat) (p : RawPost) (sub : String) :
    processPost now p sub = none ↔ (p.id = none ∨ p.id = some "") := by
  cases hid : p.id with
  | none => simp [processPost, hid]
  | some s =>
    by_cases hs : s = ""
    · subst hs; simp [processPost, hid]
    · simp [processPost, hid, hs]

theorem normalizer_drop_iff_witness :
    processPost 0 (postWithId "") "diabetes" = none :=
  (normalizer_drop_iff 0 (postWithId "") "diabetes").mpr (Or.inr rfl)

/-! ### C5 fixtures: a listing whose single top-level comment has two
replies, exercising the nested levels. -/

def rawLeaf : RawNode := .mk "t1" none none none none none

def rawWide : RawNode := .mk "t1" none none none none (some [rawLeaf, rawLeaf])

def leafC : Comment := .mk "[deleted]" "" 0 0 []

def wideC : Comment := .mk "[deleted]" "" 0 0 [leafC, leafC]

theorem extract_rawLeaf : extractComment 2 rawLeaf 1 = some leafC := by
  rw [extractComment]
  simp [rawLeaf, RawNode.kind, RawNode.author, RawNode.body, RawNode.score,
    RawNode.created_utc, RawNode.replies, leafC]

theorem extract_rawWide : extractComment 2 rawWide 0 = some wideC := by
  rw [extractComment]
  simp [rawWide, RawNode.kind, RawNode.author, RawNode.body, RawNode.score,
    RawNode.created_utc, RawNode.replies, List.filterMap_cons, extract_rawLeaf,
    wideC]

theorem getPostComments_rawWide : getPostComments [rawWide] 1 2 = [wideC] := by
  unfold getPostComments
  simp [List.take, List.filterMap_cons, extract_rawWide]

/-- C5 is false of the code: with a top-level cap of 1 comment, the nested
reply level of the extracted tree keeps 2 children — `extract_comment`
iterates over *all* reply children, applying no breadth cap below the top
level. -/
theorem comment_breadth_counterexample :
    (getPostComments [rawWide] 1 2).all (breadthLe 1) = false := by
  rw [getPostComments_rawWide]
  simp [breadthLe, breadthLeList, wideC, leafC]

/-- C5 amended: the depth bound is enforced at every node — no comment in
the extracted tree nests deeper than the configured max depth — and the
top-level breadth is capped by `limit`.  Nested levels carry no breadth cap
(the original claim fails there, see the counterexample). -/
theorem comment_depth_bounded (commentData : List RawNode) (limit maxDepth : Nat) :
    (getPostComments commentData limit maxDepth).length ≤ limit ∧
    ∀ c ∈ getPostComments commentData limit maxDepth, commentHeight c ≤ maxDepth :=
  ⟨getPostComments_length_le commentData limit maxDepth,
   fun c hc => getPostComments_height commentData limit maxDepth c hc⟩

theorem comment_depth_bounded_witness :
    (getPostComments [rawWide] 1 2).length ≤ 1 ∧ commentHeight wideC ≤ 2 :=
  ⟨(comment_depth_bounded [rawWide] 1 2).1,
   (comment_depth_bounded [rawWide] 1 2).2 wideC
     (by rw [getPostComments_rawWide]; exact List.mem_singleton.mpr rfl)⟩

end TrustMed
